import Mathlib

/-!
Verification of the agent-swarm simulation script (`simulation.py`).

The script simulates N agents moving in the plane under a double-well
potential drift, a class-dependent mean-field interaction, and Gaussian
noise, recording one snapshot per time step.  Positions are 2-vectors of
reals, modelled here as `ℝ × ℝ`; the pseudo-random draws of the script
(initial positions, classes, per-step noise) are modelled as explicit
inputs, so every function of the script becomes a pure function of its
inputs and the random streams.
-/

/-- Componentwise scalar multiple of a 2-vector (numpy `a * v`). -/
noncomputable def vsmul (a : ℝ) (v : ℝ × ℝ) : ℝ × ℝ := (a * v.1, a * v.2)

/-- Componentwise division of a 2-vector by a scalar (numpy `v / a`). -/
noncomputable def vdiv (v : ℝ × ℝ) (a : ℝ) : ℝ × ℝ := (v.1 / a, v.2 / a)

/-- Euclidean norm of a 2-vector (`np.linalg.norm`). -/
noncomputable def vnorm (v : ℝ × ℝ) : ℝ := Real.sqrt (v.1 ^ 2 + v.2 ^ 2)

/-- Class tag of a Guard (`classes` comment, line 13: 0 is Guard). -/
def guardClass : ℕ := 0

/-- Class tag of a Mage (line 13: 1 is Mage). -/
def mageClass : ℕ := 1

/-- Class tag of a Ninja (line 13: 2 is Ninja). -/
def ninjaClass : ℕ := 2

/-- `interaction_kernel(xi, xj, c_type)` from lines 16-29 of the script,
with the local bindings `r = xi - xj` and `dist = np.linalg.norm(r)`
inlined: the near-coincidence floor first, then the integer-tag branches
(`c_type == 0` Guard, `c_type == 1` Mage, every other tag the Ninja
branch returning zeros). -/
noncomputable def interaction_kernel (xi xj : ℝ × ℝ) (c_type : ℕ) : ℝ × ℝ :=
  if vnorm (xi - xj) < 1e-3 then (0, 0)
  else if c_type = 0 then
    (if vnorm (xi - xj) < 2 then vdiv (vsmul 2.0 (xi - xj)) (vnorm (xi - xj) ^ 3)
     else (0, 0))
  else if c_type = 1 then
    vdiv (vsmul (-0.5) (xi - xj)) (vnorm (xi - xj))
  else (0, 0)

/-- `potential_gradient(x)` from lines 31-33 of the script. -/
noncomputable def potential_gradient (x : ℝ) : ℝ := 0.1 * (x ^ 3 - 9 * x)

/-- The drift computed at line 40, `-potential_gradient(X[i])`, with the
numpy elementwise negation made explicit on the two coordinates. -/
noncomputable def drift (p : ℝ × ℝ) : ℝ × ℝ :=
  (-potential_gradient p.1, -potential_gradient p.2)

/-- The double-well potential the spec names, `U(x) = a (x⁴/4 − b x²/2)`
with a = 0.1, b = 9; the script only ever evaluates its gradient. -/
noncomputable def doubleWellU (x : ℝ) : ℝ := 0.1 * (x ^ 4 / 4 - 9 * x ^ 2 / 2)

/- Basic norm facts used throughout. -/

lemma vnorm_nonneg (v : ℝ × ℝ) : 0 ≤ vnorm v := Real.sqrt_nonneg _

lemma vnorm_sq (v : ℝ × ℝ) : v.1 ^ 2 + v.2 ^ 2 = vnorm v ^ 2 := by
  rw [vnorm, Real.sq_sqrt (by positivity)]

lemma vnorm_neg (v : ℝ × ℝ) : vnorm (-v) = vnorm v := by
  simp only [vnorm, Prod.fst_neg, Prod.snd_neg, neg_sq]

lemma vnorm_mk_one_zero : vnorm (1, 0) = 1 := by
  simp [vnorm]

lemma vnorm_mk_two_zero : vnorm (2, 0) = 2 := by
  rw [vnorm]
  norm_num
  rw [show (4 : ℝ) = 2 ^ 2 by norm_num, Real.sqrt_sq (by norm_num)]

lemma vnorm_zero : vnorm (0, 0) = 0 := by
  simp [vnorm]

lemma vdiv_eq_vsmul (v : ℝ × ℝ) (a : ℝ) : vdiv v a = vsmul a⁻¹ v := by
  simp only [vdiv, vsmul, div_eq_inv_mul]

lemma vnorm_vsmul (a : ℝ) (v : ℝ × ℝ) : vnorm (vsmul a v) = |a| * vnorm v := by
  simp only [vnorm, vsmul]
  rw [mul_pow, mul_pow, ← mul_add, Real.sqrt_mul (sq_nonneg a), Real.sqrt_sq_eq_abs]

/-- C2: whenever the two positions are closer than `1e-3`, the kernel
returns the zero vector for every class tag, so neither division branch
is ever evaluated at a near-zero distance. -/
theorem kernel_zero_near_coincident (xi xj : ℝ × ℝ) (c_type : ℕ)
    (h : vnorm (xi - xj) < 1e-3) :
    interaction_kernel xi xj c_type = (0, 0) := by
  rw [interaction_kernel, if_pos h]

/-- C2 witness: coincident positions are within the floor, and the kernel
vanishes there for Guard, Mage and Ninja alike. -/
theorem kernel_zero_near_coincident_witness :
    vnorm (((0 : ℝ), (0 : ℝ)) - ((0 : ℝ), (0 : ℝ))) < 1e-3 ∧
      interaction_kernel ((0 : ℝ), (0 : ℝ)) ((0 : ℝ), (0 : ℝ)) guardClass = (0, 0) ∧
      interaction_kernel ((0 : ℝ), (0 : ℝ)) ((0 : ℝ), (0 : ℝ)) mageClass = (0, 0) ∧
      interaction_kernel ((0 : ℝ), (0 : ℝ)) ((0 : ℝ), (0 : ℝ)) ninjaClass = (0, 0) := by
  have hsub : (((0 : ℝ), (0 : ℝ)) : ℝ × ℝ) - ((0 : ℝ), (0 : ℝ)) = ((0 : ℝ), (0 : ℝ)) := by
    simp
  have h : vnorm (((0 : ℝ), (0 : ℝ)) - ((0 : ℝ), (0 : ℝ))) < 1e-3 := by
    rw [hsub, vnorm_zero]; norm_num
  exact ⟨h, kernel_zero_near_coincident _ _ _ h,
    kernel_zero_near_coincident _ _ _ h, kernel_zero_near_coincident _ _ _ h⟩

/-- C3: for the Guard class, a pair at distance in `[1e-3, 2)` yields the
repulsion `2 · r / dist³`, and a pair at distance `≥ 2` yields the zero
vector. -/
theorem kernel_guard_cases (xi xj : ℝ × ℝ) :
    (1e-3 ≤ vnorm (xi - xj) → vnorm (xi - xj) < 2 →
      interaction_kernel xi xj guardClass =
        vdiv (vsmul 2.0 (xi - xj)) (vnorm (xi - xj) ^ 3)) ∧
    (2 ≤ vnorm (xi - xj) → interaction_kernel xi xj guardClass = (0, 0)) := by
  constructor
  · intro h1 h2
    have hnot : ¬ vnorm (xi - xj) < 1e-3 := by linarith
    rw [interaction_kernel, if_neg hnot]
    simp only [guardClass]
    rw [if_true, if_pos h2]
  · intro h2
    have hnot : ¬ vnorm (xi - xj) < 1e-3 := by norm_num; linarith
    rw [interaction_kernel, if_neg hnot]
    simp only [guardClass]
    rw [if_true, if_neg (by linarith)]

/-- C3 witness: at distance 1 the Guard kernel is the concrete repulsion
`(2, 0)`, and at distance 2 it is the zero vector. -/
theorem kernel_guard_cases_witness :
    interaction_kernel ((1 : ℝ), (0 : ℝ)) ((0 : ℝ), (0 : ℝ)) guardClass = (2, 0) ∧
      interaction_kernel ((2 : ℝ), (0 : ℝ)) ((0 : ℝ), (0 : ℝ)) guardClass = (0, 0) := by
  have hsub1 : ((1 : ℝ), (0 : ℝ)) - ((0 : ℝ), (0 : ℝ)) = ((1 : ℝ), (0 : ℝ)) := by
    simp
  have hsub2 : ((2 : ℝ), (0 : ℝ)) - ((0 : ℝ), (0 : ℝ)) = ((2 : ℝ), (0 : ℝ)) := by
    simp
  constructor
  · have h := (kernel_guard_cases ((1 : ℝ), (0 : ℝ)) ((0 : ℝ), (0 : ℝ))).1
    rw [hsub1, vnorm_mk_one_zero] at h
    rw [h (by norm_num) (by norm_num)]
    simp only [vsmul, vdiv]
    norm_num
  · have h := (kernel_guard_cases ((2 : ℝ), (0 : ℝ)) ((0 : ℝ), (0 : ℝ))).2
    rw [hsub2, vnorm_mk_two_zero] at h
    exact h (by norm_num)

/-- C4: for the Mage class, any pair at distance above the floor yields
`-0.5 · r / dist`, a vector of Euclidean norm exactly 0.5. -/
theorem kernel_mage_constant_magnitude (xi xj : ℝ × ℝ)
    (h : 1e-3 < vnorm (xi - xj)) :
    interaction_kernel xi xj mageClass =
      vdiv (vsmul (-0.5) (xi - xj)) (vnorm (xi - xj)) ∧
    vnorm (interaction_kernel xi xj mageClass) = 0.5 := by
  have hd0 : 0 < vnorm (xi - xj) := by linarith
  have hne : vnorm (xi - xj) ≠ 0 := ne_of_gt hd0
  have hform : interaction_kernel xi xj mageClass =
      vdiv (vsmul (-0.5) (xi - xj)) (vnorm (xi - xj)) := by
    rw [interaction_kernel, if_neg (by linarith)]
    simp only [mageClass]
    rw [if_neg (by norm_num), if_true]
  refine ⟨hform, ?_⟩
  rw [hform, vdiv_eq_vsmul, vnorm_vsmul, vnorm_vsmul,
    abs_of_pos (inv_pos.mpr hd0), show |(-0.5 : ℝ)| = 0.5 by norm_num]
  field_simp

/-- C4 witness: at distance 1 the Mage kernel is `(-0.5, 0)`, of norm
exactly 0.5. -/
theorem kernel_mage_constant_magnitude_witness :
    interaction_kernel ((1 : ℝ), (0 : ℝ)) ((0 : ℝ), (0 : ℝ)) mageClass = (-0.5, 0) ∧
      vnorm (interaction_kernel ((1 : ℝ), (0 : ℝ)) ((0 : ℝ), (0 : ℝ)) mageClass) = 0.5 := by
  have hsub1 : ((1 : ℝ), (0 : ℝ)) - ((0 : ℝ), (0 : ℝ)) = ((1 : ℝ), (0 : ℝ)) := by
    simp
  have h := kernel_mage_constant_magnitude ((1 : ℝ), (0 : ℝ)) ((0 : ℝ), (0 : ℝ))
    (by rw [hsub1, vnorm_mk_one_zero]; norm_num)
  refine ⟨?_, h.2⟩
  rw [h.1, hsub1, vnorm_mk_one_zero]
  simp only [vsmul, vdiv]
  norm_num

/-- C5: the potential gradient is exactly `0.1 (x³ − 9x)`, it is the
derivative of the double-well `U(x) = 0.1 (x⁴/4 − 9 x²/2)`, and the drift
is the negated gradient applied to each coordinate independently. -/
theorem potential_gradient_and_drift (x : ℝ) (p : ℝ × ℝ) :
    potential_gradient x = 0.1 * (x ^ 3 - 9 * x) ∧
    HasDerivAt doubleWellU (potential_gradient x) x ∧
    drift p = (-potential_gradient p.1, -potential_gradient p.2) := by
  refine ⟨rfl, ?_, rfl⟩
  have h4 : HasDerivAt (fun y : ℝ => y ^ 4) ((4 : ℝ) * x ^ 3) x := by
    simpa using hasDerivAt_pow 4 x
  have h2 : HasDerivAt (fun y : ℝ => y ^ 2) ((2 : ℝ) * x) x := by
    simpa using hasDerivAt_pow 2 x
  have h : HasDerivAt (fun y : ℝ => 0.1 * (y ^ 4 / 4 - 9 * y ^ 2 / 2))
      (0.1 * ((4 : ℝ) * x ^ 3 / 4 - 9 * ((2 : ℝ) * x) / 2)) x :=
    ((h4.div_const 4).sub ((h2.const_mul 9).div_const 2)).const_mul 0.1
  have : (0.1 : ℝ) * ((4 : ℝ) * x ^ 3 / 4 - 9 * ((2 : ℝ) * x) / 2) =
      potential_gradient x := by
    rw [potential_gradient]; ring
  rw [← this]
  exact h

/-- The mean-field interaction accumulated at lines 42-46 of the script:
starting from `np.zeros(2)`, each `j` in `range(N)` other than `i` adds
`interaction_kernel(X[i], X[j], classes[i])`, and the total is divided by
`N` (`interaction /= N`). -/
noncomputable def interactionTerm (X : List (ℝ × ℝ)) (classes : List ℕ) (i : ℕ) : ℝ × ℝ :=
  vdiv ((List.range X.length).foldl
      (fun acc j => if i = j then acc
        else acc + interaction_kernel (X.getD i (0, 0)) (X.getD j (0, 0)) (classes.getD i 0))
      (0, 0))
    (X.length : ℝ)

/-- The noise drawn at line 48, `np.random.randn(2) * np.sqrt(dt) * sigma`,
with the standard-normal draw `g` taken as input. -/
noncomputable def noiseTerm (g : ℝ × ℝ) (dt sigma : ℝ) : ℝ × ℝ :=
  vsmul (Real.sqrt dt * sigma) g

/-- The right-hand side of line 51,
`X_new[i] = X[i] + (drift + interaction) * dt + noise`, for agent `i`,
reading only the prior snapshot `X`. -/
noncomputable def newPos (X : List (ℝ × ℝ)) (classes : List ℕ) (η : ℕ → ℝ × ℝ)
    (dt sigma : ℝ) (i : ℕ) : ℝ × ℝ :=
  X.getD i (0, 0) + vsmul dt (drift (X.getD i (0, 0)) + interactionTerm X classes i) +
    noiseTerm (η i) dt sigma

/-- One pass of the loop body (lines 38-51): `X_new = np.zeros_like(X)`,
then each index `i` in `range(N)` is set to the updated position computed
from the prior snapshot `X`. -/
noncomputable def step (X : List (ℝ × ℝ)) (classes : List ℕ) (η : ℕ → ℝ × ℝ)
    (dt sigma : ℝ) : List (ℝ × ℝ) :=
  (List.range X.length).foldl
    (fun Xnew i => Xnew.set i (newPos X classes η dt sigma i))
    (List.replicate X.length (0, 0))

/- Generic lemmas about filling a fresh buffer by index. -/

lemma foldl_set_length {α : Type} (f : ℕ → α) :
    ∀ (l : List ℕ) (acc : List α),
      (l.foldl (fun a i => a.set i (f i)) acc).length = acc.length := by
  intro l
  induction l with
  | nil => intro acc; rfl
  | cons x xs ih =>
    intro acc
    rw [List.foldl_cons, ih, List.length_set]

lemma set_at_append_point {α : Type} (l2 : List α) (b : α) :
    ∀ l1 : List α, (l1 ++ l2).set l1.length b = l1 ++ l2.set 0 b := by
  intro l1
  induction l1 with
  | nil => rfl
  | cons x xs ih => simp [List.set, ih]

lemma foldl_set_range {α : Type} (f : ℕ → α) :
    ∀ (n : ℕ) (acc : List α), n ≤ acc.length →
      (List.range n).foldl (fun a i => a.set i (f i)) acc =
        (List.range n).map f ++ acc.drop n := by
  intro n
  induction n with
  | zero => intro acc _; simp
  | succ n ih =>
    intro acc h
    rw [List.range_succ, List.foldl_append, List.map_append, ih acc (by omega)]
    simp only [List.foldl_cons, List.foldl_nil, List.map_cons, List.map_nil]
    have hlen : ((List.range n).map f).length = n := by simp
    have hset := set_at_append_point (acc.drop n) (f n) ((List.range n).map f)
    rw [hlen] at hset
    rw [hset]
    cases hdrop : acc.drop n with
    | nil =>
      exfalso
      have := congrArg List.length hdrop
      simp at this
      omega
    | cons x t =>
      have hdrop1 : acc.drop (n + 1) = t := by
        have : acc.drop (n + 1) = (acc.drop n).drop 1 := by
          rw [List.drop_drop]
        rw [this, hdrop]
        rfl
      rw [hdrop1]
      simp

lemma step_eq_map (X : List (ℝ × ℝ)) (classes : List ℕ) (η : ℕ → ℝ × ℝ)
    (dt sigma : ℝ) :
    step X classes η dt sigma =
      (List.range X.length).map (newPos X classes η dt sigma) := by
  rw [step, foldl_set_range _ _ _ (by simp)]
  simp

lemma step_length (X : List (ℝ × ℝ)) (classes : List ℕ) (η : ℕ → ℝ × ℝ)
    (dt sigma : ℝ) : (step X classes η dt sigma).length = X.length := by
  rw [step_eq_map]
  simp

lemma getD_map_range {α : Type} (f : ℕ → α) (d : α) {i n : ℕ} (h : i < n) :
    ((List.range n).map f).getD i d = f i := by
  rw [List.getD_eq_getElem?_getD, List.getElem?_map, List.getElem?_range h]
  rfl

/-- The accumulation loop of lines 43-45 equals the finite sum over all
indices other than `i`. -/
lemma foldl_skip_eq_sum (g : ℕ → ℝ × ℝ) (i : ℕ) :
    ∀ n : ℕ,
      (List.range n).foldl (fun acc j => if i = j then acc else acc + g j) (0, 0)
        = ∑ j in (Finset.range n).erase i, g j := by
  intro n
  induction n with
  | zero => simp
  | succ n ih =>
    rw [List.range_succ, List.foldl_append, ih]
    simp only [List.foldl_cons, List.foldl_nil]
    by_cases hi : i = n
    · subst hi
      rw [if_pos rfl, Finset.range_succ,
        Finset.erase_insert Finset.not_mem_range_self,
        Finset.erase_eq_of_not_mem Finset.not_mem_range_self]
    · rw [if_neg hi, Finset.range_succ, Finset.erase_insert_of_ne (Ne.symm hi),
        Finset.sum_insert (fun hmem =>
          Finset.not_mem_range_self (Finset.mem_of_mem_erase hmem)),
        add_comm]

/-- C6: the aggregated interaction for agent `i` is `(1/N)` times the sum
of the kernel over every index `j ≠ i` (self-term excluded, division by
`N`), and with a single agent it is the zero vector. -/
theorem interaction_mean_field (X : List (ℝ × ℝ)) (classes : List ℕ) (i : ℕ) :
    interactionTerm X classes i =
      vsmul (1 / (X.length : ℝ))
        (∑ j in (Finset.range X.length).erase i,
          interaction_kernel (X.getD i (0, 0)) (X.getD j (0, 0)) (classes.getD i 0)) ∧
    (X.length = 1 → i < X.length → interactionTerm X classes i = (0, 0)) := by
  have hmain : interactionTerm X classes i =
      vsmul (1 / (X.length : ℝ))
        (∑ j in (Finset.range X.length).erase i,
          interaction_kernel (X.getD i (0, 0)) (X.getD j (0, 0)) (classes.getD i 0)) := by
    rw [interactionTerm, foldl_skip_eq_sum, vdiv_eq_vsmul, one_div]
  refine ⟨hmain, ?_⟩
  intro h1 hi
  have hi0 : i = 0 := by omega
  subst hi0
  rw [hmain]
  simp [h1, vsmul]

/-- C6 witness: with one agent the interaction term is the zero vector. -/
theorem interaction_mean_field_witness :
    interactionTerm [((1 : ℝ), (2 : ℝ))] [5] 0 = (0, 0) :=
  (interaction_mean_field [((1 : ℝ), (2 : ℝ))] [5] 0).2 rfl (by simp)

/-- C7: the step is a synchronous Euler–Maruyama update: the new snapshot
is a map of the update rule over the prior snapshot, and every agent's
new position is `x_i + (drift_i + interaction_i)·dt + noise_i` computed
entirely from the prior snapshot `X` (the buffer being filled is never
read). -/
theorem step_synchronous (X : List (ℝ × ℝ)) (classes : List ℕ) (η : ℕ → ℝ × ℝ)
    (dt sigma : ℝ) (i : ℕ) (h : i < X.length) :
    step X classes η dt sigma =
      (List.range X.length).map (newPos X classes η dt sigma) ∧
    (step X classes η dt sigma).getD i (0, 0) =
      X.getD i (0, 0) +
        vsmul dt (drift (X.getD i (0, 0)) + interactionTerm X classes i) +
        noiseTerm (η i) dt sigma := by
  refine ⟨step_eq_map X classes η dt sigma, ?_⟩
  rw [step_eq_map, getD_map_range _ _ h]
  rfl

/-- C7 witness: a single agent at the origin with unit time step and zero
noise stays at the origin, as the update formula evaluates concretely. -/
theorem step_synchronous_witness :
    (step [((0 : ℝ), (0 : ℝ))] [0] (fun _ => ((0 : ℝ), (0 : ℝ))) 1 0).getD 0 (0, 0) =
      ((0 : ℝ), (0 : ℝ)) := by
  have h := (step_synchronous [((0 : ℝ), (0 : ℝ))] [0]
    (fun _ => ((0 : ℝ), (0 : ℝ))) 1 0 0 (by simp)).2
  rw [h]
  simp [interactionTerm, vdiv, vsmul, drift, potential_gradient, noiseTerm,
    List.range_succ]

/-- C10: the kernel is antisymmetric in the two positions for every fixed
acting class: swapping `xi` and `xj` negates the result in every branch. -/
theorem kernel_antisymm (xi xj : ℝ × ℝ) (c_type : ℕ) :
    interaction_kernel xi xj c_type = -interaction_kernel xj xi c_type := by
  have hnorm : vnorm (xj - xi) = vnorm (xi - xj) := by
    rw [show xj - xi = -(xi - xj) by ring, vnorm_neg]
  rw [interaction_kernel, interaction_kernel, hnorm]
  have hswap : xj - xi = -(xi - xj) := by ring
  split_ifs with h1 h2 h3 <;>
    simp only [hswap, vsmul, vdiv, Prod.fst_neg, Prod.snd_neg, Prod.neg_mk,
      Prod.mk.injEq] <;>
    constructor <;> ring

/- The module configuration constants of lines 4-8 of the script. -/

namespace SimConfig

def N : ℕ := 50

def T : ℕ := 100

noncomputable def dt : ℝ := 0.1

noncomputable def sigma : ℝ := 0.5

end SimConfig

/-- The simulation loop of lines 36-54, started at step index `t` with `k`
steps remaining: each iteration builds `X_new` with `step`, appends it to
`history`, and continues from it.  The per-step standard-normal draws are
the input stream `η`, indexed by step and agent. -/
noncomputable def runFrom (classes : List ℕ) (η : ℕ → ℕ → ℝ × ℝ) (dt sigma : ℝ) :
    ℕ → ℕ → List (ℝ × ℝ) → List (List (ℝ × ℝ))
  | _, 0, _ => []
  | t, k + 1, X =>
    step X classes (η t) dt sigma ::
      runFrom classes η dt sigma (t + 1) k (step X classes (η t) dt sigma)

/-- The whole run: `T` iterations of the loop from the initial positions
`X0`, returning the recorded `history`. -/
noncomputable def run (T : ℕ) (X0 : List (ℝ × ℝ)) (classes : List ℕ)
    (η : ℕ → ℕ → ℝ × ℝ) (dt sigma : ℝ) : List (List (ℝ × ℝ)) :=
  runFrom classes η dt sigma 0 T X0

/-- The population state reached after `m` further steps from `X`, the
first of which uses noise row `t`. -/
noncomputable def stateFrom (classes : List ℕ) (η : ℕ → ℕ → ℝ × ℝ) (dt sigma : ℝ) :
    ℕ → ℕ → List (ℝ × ℝ) → List (ℝ × ℝ)
  | _, 0, X => X
  | t, m + 1, X => stateFrom classes η dt sigma (t + 1) m (step X classes (η t) dt sigma)

/-- The population state after the first `t` steps of the run. -/
noncomputable def stateAfter (X0 : List (ℝ × ℝ)) (classes : List ℕ)
    (η : ℕ → ℕ → ℝ × ℝ) (dt sigma : ℝ) (t : ℕ) : List (ℝ × ℝ) :=
  stateFrom classes η dt sigma 0 t X0

lemma runFrom_length (classes : List ℕ) (η : ℕ → ℕ → ℝ × ℝ) (dt sigma : ℝ) :
    ∀ (k t : ℕ) (X : List (ℝ × ℝ)),
      (runFrom classes η dt sigma t k X).length = k := by
  intro k
  induction k with
  | zero => intro t X; rfl
  | succ k ih => intro t X; simp [runFrom, ih]

lemma runFrom_get (classes : List ℕ) (η : ℕ → ℕ → ℝ × ℝ) (dt sigma : ℝ) :
    ∀ (k t : ℕ) (X : List (ℝ × ℝ)) (j : ℕ), j < k →
      (runFrom classes η dt sigma t k X).get? j =
        some (stateFrom classes η dt sigma t (j + 1) X) := by
  intro k
  induction k with
  | zero => intro t X j hj; omega
  | succ k ih =>
    intro t X j hj
    cases j with
    | zero => simp [runFrom, stateFrom]
    | succ j =>
      rw [runFrom, List.get?_cons_succ, ih (t + 1) _ j (by omega)]
      rfl

lemma stateFrom_succ_right (classes : List ℕ) (η : ℕ → ℕ → ℝ × ℝ) (dt sigma : ℝ) :
    ∀ (m t : ℕ) (X : List (ℝ × ℝ)),
      stateFrom classes η dt sigma t (m + 1) X =
        step (stateFrom classes η dt sigma t m X) classes (η (t + m)) dt sigma := by
  intro m
  induction m with
  | zero => intro t X; simp [stateFrom]
  | succ m ih =>
    intro t X
    rw [show stateFrom classes η dt sigma t (m + 2) X =
        stateFrom classes η dt sigma (t + 1) (m + 1) (step X classes (η t) dt sigma)
      from rfl, ih (t + 1)]
    rw [show stateFrom classes η dt sigma t (m + 1) X =
        stateFrom classes η dt sigma (t + 1) m (step X classes (η t) dt sigma)
      from rfl]
    rw [show t + 1 + m = t + (m + 1) from by omega]

lemma runFrom_mem_length (classes : List ℕ) (η : ℕ → ℕ → ℝ × ℝ) (dt sigma : ℝ) :
    ∀ (k t : ℕ) (X : List (ℝ × ℝ)) (s : List (ℝ × ℝ)),
      s ∈ runFrom classes η dt sigma t k X → s.length = X.length := by
  intro k
  induction k with
  | zero => intro t X s hs; simp [runFrom] at hs
  | succ k ih =>
    intro t X s hs
    rw [runFrom, List.mem_cons] at hs
    rcases hs with hs | hs
    · rw [hs, step_length]
    · rw [ih (t + 1) _ s hs, step_length]

/-- C8: the recorded trajectory has length exactly `T`, the snapshot at
index `t` is exactly the state produced by step `t` (which advances the
previous state by one synchronous step), every snapshot has exactly `N`
positions, and every position is a pair of two real coordinates. -/
theorem trajectory_shape (T : ℕ) (X0 : List (ℝ × ℝ)) (classes : List ℕ)
    (η : ℕ → ℕ → ℝ × ℝ) (dt sigma : ℝ) :
    (run T X0 classes η dt sigma).length = T ∧
    (∀ t : ℕ, t < T →
      (run T X0 classes η dt sigma).get? t =
        some (stateAfter X0 classes η dt sigma (t + 1))) ∧
    (∀ t : ℕ, stateAfter X0 classes η dt sigma (t + 1) =
      step (stateAfter X0 classes η dt sigma t) classes (η t) dt sigma) ∧
    (∀ s ∈ run T X0 classes η dt sigma, s.length = X0.length) ∧
    (∀ s ∈ run T X0 classes η dt sigma, ∀ p ∈ s, p = (p.1, p.2)) := by
  refine ⟨runFrom_length classes η dt sigma T 0 X0,
    fun t ht => runFrom_get classes η dt sigma T 0 X0 t ht,
    fun t => ?_,
    fun s hs => runFrom_mem_length classes η dt sigma T 0 X0 s hs,
    fun s _ p _ => rfl⟩
  rw [stateAfter, stateAfter, stateFrom_succ_right, zero_add]

/-- C8 witness: a one-step run of a single stationary agent records
exactly the snapshot produced by that step. -/
theorem trajectory_shape_witness :
    (run 1 [((0 : ℝ), (0 : ℝ))] [0] (fun _ _ => ((0 : ℝ), (0 : ℝ))) 1 0).get? 0 =
      some [((0 : ℝ), (0 : ℝ))] := by
  have h := (trajectory_shape 1 [((0 : ℝ), (0 : ℝ))] [0]
    (fun _ _ => ((0 : ℝ), (0 : ℝ))) 1 0).2.1 0 (by norm_num)
  rw [h]
  simp [stateAfter, stateFrom, step_eq_map, List.range_succ, newPos,
    interactionTerm, vdiv, vsmul, drift, potential_gradient, noiseTerm]

lemma step_noise_congr (X : List (ℝ × ℝ)) (classes : List ℕ)
    (η₁ η₂ : ℕ → ℝ × ℝ) (dt sigma : ℝ)
    (h : ∀ i, i < X.length → η₁ i = η₂ i) :
    step X classes η₁ dt sigma = step X classes η₂ dt sigma := by
  rw [step_eq_map, step_eq_map]
  apply List.map_congr_left
  intro i hi
  rw [newPos, newPos, h i (List.mem_range.mp hi)]

lemma runFrom_noise_congr (classes : List ℕ) (η₁ η₂ : ℕ → ℕ → ℝ × ℝ)
    (dt sigma : ℝ) :
    ∀ (k t : ℕ) (X : List (ℝ × ℝ)),
      (∀ u i, t ≤ u → u < t + k → i < X.length → η₁ u i = η₂ u i) →
      runFrom classes η₁ dt sigma t k X = runFrom classes η₂ dt sigma t k X := by
  intro k
  induction k with
  | zero => intro t X _; rfl
  | succ k ih =>
    intro t X h
    have hstep : step X classes (η₁ t) dt sigma = step X classes (η₂ t) dt sigma :=
      step_noise_congr X classes (η₁ t) (η₂ t) dt sigma
        (fun i hi => h t i (le_refl t) (by omega) hi)
    rw [runFrom, runFrom, hstep]
    congr 1
    apply ih (t + 1)
    intro u i hu1 hu2 hi
    apply h u i (by omega) (by omega)
    rwa [step_length] at hi

/-- C9: the run is a deterministic function of the initialization and the
noise stream: two runs with the same configuration, the same initial
positions and classes, and noise streams that agree on every draw the
loop consumes produce identical trajectories. -/
theorem run_deterministic (T : ℕ) (X0 : List (ℝ × ℝ)) (classes : List ℕ)
    (η₁ η₂ : ℕ → ℕ → ℝ × ℝ) (dt sigma : ℝ)
    (h : ∀ t, t < T → ∀ i, i < X0.length → η₁ t i = η₂ t i) :
    run T X0 classes η₁ dt sigma = run T X0 classes η₂ dt sigma := by
  apply runFrom_noise_congr classes η₁ η₂ dt sigma T 0 X0
  intro u i _ hu2 hi
  exact h u (by omega) i hi

/-- C9 witness: two noise streams that agree on the single consumed draw
yield identical one-step trajectories even though they differ elsewhere. -/
theorem run_deterministic_witness :
    run 1 [((0 : ℝ), (0 : ℝ))] [0] (fun _ _ => ((0 : ℝ), (0 : ℝ))) 1 0 =
      run 1 [((0 : ℝ), (0 : ℝ))] [0]
        (fun t i => if t < 1 ∧ i < 1 then ((0 : ℝ), (0 : ℝ)) else ((1 : ℝ), (1 : ℝ))) 1 0 := by
  apply run_deterministic
  intro t ht i hi
  simp only [List.length_cons, List.length_nil] at hi
  rw [if_pos ⟨ht, hi⟩]

/-- C1 counterexample: the script performs no configuration validation.
With an empty population (`N = 0`), `dt = 0` and `sigma = -1` (all
violating the stated constraints) and `T = 1`, the loop still executes
and records a snapshot: the trajectory is nonempty, of length 1. -/
theorem run_no_validation_counterexample :
    run 1 [] [] (fun _ _ => ((0 : ℝ), (0 : ℝ))) 0 (-1) ≠ [] ∧
      (run 1 [] [] (fun _ _ => ((0 : ℝ), (0 : ℝ))) 0 (-1)).length = 1 := by
  refine ⟨?_, runFrom_length [] (fun _ _ => ((0 : ℝ), (0 : ℝ))) 0 (-1) 1 0 []⟩
  rw [run, runFrom]
  exact List.cons_ne_nil _ _

/-- C1 amended: the script never validates its configuration: the loop
runs unconditionally and records exactly `T` snapshots for every
configuration, including invalid ones; the hard-coded module
configuration happens to satisfy `N > 0`, `T ≥ 0`, `dt > 0`,
`sigma ≥ 0`. -/
theorem run_no_validation_amended :
    (∀ (T : ℕ) (X0 : List (ℝ × ℝ)) (classes : List ℕ)
      (η : ℕ → ℕ → ℝ × ℝ) (dt sigma : ℝ),
      (run T X0 classes η dt sigma).length = T) ∧
    0 < SimConfig.N ∧ 0 ≤ SimConfig.T ∧ 0 < SimConfig.dt ∧ 0 ≤ SimConfig.sigma := by
  refine ⟨fun T X0 classes η dt sigma => runFrom_length classes η dt sigma T 0 X0,
    by norm_num [SimConfig.N], Nat.zero_le _,
    by norm_num [SimConfig.dt], by norm_num [SimConfig.sigma]⟩
